import Mathlib

/-!
Verification of the `feeless` repository's core: the Nano address codec
(`src/keys/address.rs`), the wire message framer for confirmation requests
(`node/src/messages/handle_confirm_req.rs`), and the ledger state interface
(`src/node/state/mod.rs`).

Rust strings are embedded as `List Char` (the character content; all
strings involved are ASCII), byte buffers as `List Nat` with every element
`< 256`, and `bitvec`'s `BitVec<u8, Msb0>` as `List Bool` in most-significant-
bit-first order.  Fallible Rust functions become `Except`/`Option`, with a
comment wherever a Rust panic (slice out of bounds, `unwrap`) is folded into
the failure case.
-/

namespace Feeless

/-- Most-significant-bit-first bits of `n`, `w` bits wide (models how
`bitvec`'s `Msb0` ordering presents a byte, and a 5-bit base-32 symbol). -/
def natToBits (w n : Nat) : List Bool :=
  (List.range w).map (fun i => n.testBit (w - 1 - i))

/-- Value of a most-significant-bit-first bit string. -/
def bitsToNat : List Bool → Nat
  | [] => 0
  | b :: bs => (if b then 1 else 0) * 2 ^ bs.length + bitsToNat bs

/-- The 8 bits of a byte, most significant first. -/
def byteToBits (b : Nat) : List Bool := natToBits 8 b

/-- The bit stream of a byte buffer (models
`BitVec::extend_from_raw_slice` on a `&[u8]` with `Msb0` ordering). -/
def bytesToBits (bytes : List Nat) : List Bool := bytes.flatMap byteToBits

/-- Modelled from the spec: the custom 32-symbol alphabet of the Nano
base-32 encoding ("digits 1,3 and lowercase letters excluding ambiguous
ones").  The exact symbol list is fixed by the character class of
`ADDRESS_REGEX` in `src/keys/address.rs`:
`[13456789abcdefghijkmnopqrstuwxyz]`. -/
def NANO_ALPHABET : List Char := "13456789abcdefghijkmnopqrstuwxyz".data

/-- The base-32 symbol of a 5-bit group. -/
def encodeChunk (b1 b2 b3 b4 b5 : Bool) : Char :=
  NANO_ALPHABET.getD (bitsToNat [b1, b2, b3, b4, b5]) '1'

/-- Modelled from the spec: `encoding::encode_nano_base_32` (the file
`src/encoding.rs` is not in the sources).  "base-32-encode this bit
sequence using a custom 32-symbol alphabet ... each symbol carries 5
bits".  Consumes the bit stream five bits at a time, most significant
first; every call site passes a multiple of five bits. -/
def encode_nano_base_32 : List Bool → List Char
  | b1 :: b2 :: b3 :: b4 :: b5 :: rest =>
      encodeChunk b1 b2 b3 b4 b5 :: encode_nano_base_32 rest
  | _ => []

/-- The 5 bits of one base-32 symbol, `none` when the character is not in
the alphabet. -/
def decodeChar (c : Char) : Option (List Bool) :=
  if c ∈ NANO_ALPHABET then some (natToBits 5 (NANO_ALPHABET.indexOf c)) else none

/-- Modelled from the spec: `encoding::decode_nano_base_32` (the file
`src/encoding.rs` is not in the sources).  "base-32-decode it back to a
260-bit sequence"; fails if any character is outside the alphabet. -/
def decode_nano_base_32 : List Char → Option (List Bool)
  | [] => some []
  | c :: rest =>
      match decodeChar c, decode_nano_base_32 rest with
      | some bits, some restBits => some (bits ++ restBits)
      | _, _ => none

theorem natToBits_length (w n : Nat) : (natToBits w n).length = w := by
  simp [natToBits]

theorem byteToBits_length (b : Nat) : (byteToBits b).length = 8 :=
  natToBits_length 8 b

theorem bytesToBits_length (bytes : List Nat) :
    (bytesToBits bytes).length = 8 * bytes.length := by
  induction bytes with
  | nil => simp [bytesToBits]
  | cons b rest ih =>
      simp only [bytesToBits, List.flatMap_cons, List.length_append,
        List.length_cons] at *
      rw [ih, byteToBits_length]
      omega

/-- Decoding the symbol of any 5-bit group recovers the group. -/
theorem decodeChar_encodeChunk (b1 b2 b3 b4 b5 : Bool) :
    decodeChar (encodeChunk b1 b2 b3 b4 b5) = some [b1, b2, b3, b4, b5] := by
  cases b1 <;> cases b2 <;> cases b3 <;> cases b4 <;> cases b5 <;> decide

/-- Every emitted symbol lies in the alphabet. -/
theorem encodeChunk_mem (b1 b2 b3 b4 b5 : Bool) :
    encodeChunk b1 b2 b3 b4 b5 ∈ NANO_ALPHABET := by
  cases b1 <;> cases b2 <;> cases b3 <;> cases b4 <;> cases b5 <;> decide

theorem encode_length : ∀ (n : Nat) (bits : List Bool),
    bits.length = 5 * n → (encode_nano_base_32 bits).length = n := by
  intro n
  induction n with
  | zero =>
      intro bits h
      have : bits = [] := List.eq_nil_of_length_eq_zero (by omega)
      subst this
      rfl
  | succ n ih =>
      intro bits h
      match bits with
      | b1 :: b2 :: b3 :: b4 :: b5 :: rest =>
          simp only [encode_nano_base_32, List.length_cons]
          have hr : rest.length = 5 * n := by
            simp only [List.length_cons] at h
            omega
          rw [ih rest hr]
      | [] => simp at h
      | [b1] => simp at h; omega
      | [b1, b2] => simp at h; omega
      | [b1, b2, b3] => simp at h; omega
      | [b1, b2, b3, b4] => simp at h; omega

theorem encode_mem_alphabet : ∀ (bits : List Bool),
    ∀ c ∈ encode_nano_base_32 bits, c ∈ NANO_ALPHABET := by
  intro bits
  induction bits using encode_nano_base_32.induct with
  | case1 b1 b2 b3 b4 b5 rest ih =>
      intro c hc
      simp only [encode_nano_base_32, List.mem_cons] at hc
      rcases hc with h | h
      · subst h; exact encodeChunk_mem b1 b2 b3 b4 b5
      · exact ih c h
  | case2 bits h =>
      intro c hc
      rcases bits with _ | ⟨a, _ | ⟨b, _ | ⟨d, _ | ⟨e, _ | ⟨f, r⟩⟩⟩⟩⟩ <;>
        simp [encode_nano_base_32] at hc
      exact absurd rfl (h a b d e f r)

/-- Decoding any encoded bit stream of length a multiple of five recovers
the stream. -/
theorem decode_encode : ∀ (n : Nat) (bits : List Bool), bits.length = 5 * n →
    decode_nano_base_32 (encode_nano_base_32 bits) = some bits := by
  intro n
  induction n with
  | zero =>
      intro bits h
      have : bits = [] := List.eq_nil_of_length_eq_zero (by omega)
      subst this
      rfl
  | succ n ih =>
      intro bits h
      match bits with
      | b1 :: b2 :: b3 :: b4 :: b5 :: rest =>
          have hr : rest.length = 5 * n := by
            simp only [List.length_cons] at h
            omega
          simp only [encode_nano_base_32, decode_nano_base_32,
            decodeChar_encodeChunk, ih rest hr, List.cons_append,
            List.nil_append]
      | [] => simp at h
      | [b1] => simp at h; omega
      | [b1, b2] => simp at h; omega
      | [b1, b2, b3] => simp at h; omega
      | [b1, b2, b3, b4] => simp at h; omega

/-- Hex-digit values (nibbles) of a bit stream, four bits per nibble,
most significant first.  This is `encoding::to_hex` applied to the raw
byte storage of a `BitVec<u8, Msb0>`, with each hex character represented
by its value `0..15` (the character/value correspondence of `to_hex` and
`hex::decode` is a bijection, so working with values is faithful). -/
def nibblesOfBits : List Bool → List Nat
  | a :: b :: c :: d :: rest => bitsToNat [a, b, c, d] :: nibblesOfBits rest
  | _ => []

/-- `hex::decode`: pairs of hex-digit values back to bytes. -/
def bytesOfNibbles : List Nat → List Nat
  | hi :: lo :: rest => (hi * 16 + lo) :: bytesOfNibbles rest
  | _ => []

/-- Errors of `feeless::Error` relevant to the address codec.
`decodingError` stands for the error that `decode_nano_base_32` (in the
absent `src/encoding.rs`) or `Public::try_from` (in the absent
`src/keys/public.rs`) returns; its precise Rust variant is not in the
sources, and no theorem below depends on which variant it is. -/
inductive Error where
  | invalidAddress
  | invalidChecksum
  | decodingError
  deriving DecidableEq, Repr

/-- `Address::extract_public_key` from `src/keys/address.rs`.

The Rust function slices `self.0[5..57]` (a panic when the string is
shorter — folded here into the `decodingError` result; `from_str` only
calls this on 65-character strings, and `to_public` turns any failure
into a panic anyway), base-32-decodes the 52-character body into a
260-bit `BitVec<u8, Msb0>`, then re-anchors the 4-bit offset:
`bits[4..260].to_owned()` keeps the half-byte head offset, so
`into_vec()` returns the decoder's raw 33-byte storage — the 260 bits
padded to a byte boundary with zero bits.  `to_hex` turns those 33 bytes
into 66 hex digits, `remove(0)` drops the leading padding nibble,
`remove(s.len()-1)` drops the trailing fill nibble, and `hex::decode`
(an `unwrap` that cannot fail on hex output) re-packs the remaining 64
nibbles into 32 bytes.  `Public::try_from` finally demands exactly 32
bytes (modelled from the spec: a public key is a fixed 32-byte
sequence). -/
def extract_public_key (cs : List Char) : Except Error (List Nat) :=
  if 57 ≤ cs.length then
    let public_key_part := (cs.drop 5).take 52
    match decode_nano_base_32 public_key_part with
    | none => .error .decodingError
    | some bits =>
        let storage := bits ++ List.replicate ((8 - bits.length % 8) % 8) false
        let nibbles := (nibblesOfBits storage).drop 1 |>.dropLast
        let public_key_bytes := bytesOfNibbles nibbles
        if public_key_bytes.length = 32 then .ok public_key_bytes
        else .error .decodingError
  else .error .decodingError

/-- Modelled from the spec: `Public::checksum` (the file
`src/keys/public.rs` is not in the sources).  "a 5-byte cryptographic
digest of the public key bytes, reversed, then base-32-encoded into 8
characters".  The digest itself is an opaque cryptographic primitive, so
the whole development is parameterised by the digest function `blake`. -/
def checksumChars (blake : List Nat → List Nat) (pub : List Nat) : List Char :=
  encode_nano_base_32 (bytesToBits ((blake pub).reverse))

/-- `ADDRESS_REGEX` of `src/keys/address.rs`:
`^nano_[13][13456789abcdefghijkmnopqrstuwxyz]{59}$`, anchored, so a match
is exactly 65 characters. -/
def addressRegexMatch (cs : List Char) : Bool :=
  cs.length = 65 && decide (cs.take 5 = "nano_".data) &&
    (match cs.drop 5 with
     | c :: rest =>
         (c = '1' || c = '3') && rest.all (fun x => decide (x ∈ NANO_ALPHABET))
     | [] => false)

/-- `Address::validate_checksum`: the trailing characters from index 57
must equal the checksum of the given public key. -/
def validate_checksum (blake : List Nat → List Nat) (cs : List Char)
    (pub : List Nat) : Except Error Unit :=
  if checksumChars blake pub = cs.drop 57 then .ok () else .error .invalidChecksum

/-- `impl FromStr for Address`: reject on the regex first, then extract
the public key (propagating its error), then validate the checksum; on
success the address is the input string itself. -/
def address_from_str (blake : List Nat → List Nat) (cs : List Char) :
    Except Error (List Char) :=
  if addressRegexMatch cs then
    match extract_public_key cs with
    | .error e => .error e
    | .ok pub =>
        match validate_checksum blake cs pub with
        | .error e => .error e
        | .ok _ => .ok cs
  else .error .invalidAddress

/-- `Address::to_public`: `extract_public_key` followed by `unwrap`.
`none` models the panic of the `unwrap` (and of the slice inside
`extract_public_key`). -/
def to_public (cs : List Char) : Option (List Nat) :=
  (extract_public_key cs).toOption

/-- `impl From<&Public> for Address`: the literal prefix `nano_`, then the
base-32 encoding of 4 zero padding bits followed by the 256 key bits, then
the 8-character checksum. -/
def addressFromPublic (blake : List Nat → List Nat) (pub : List Nat) :
    List Char :=
  "nano_".data ++
    encode_nano_base_32 (List.replicate 4 false ++ bytesToBits pub) ++
    checksumChars blake pub

theorem byteToBits_eq (b : Nat) :
    byteToBits b = [b.testBit 7, b.testBit 6, b.testBit 5, b.testBit 4,
      b.testBit 3, b.testBit 2, b.testBit 1, b.testBit 0] := by
  rfl

set_option maxRecDepth 4096 in
theorem bitsToNat_hi_nibble :
    ∀ b : Nat, b < 256 →
      bitsToNat [b.testBit 7, b.testBit 6, b.testBit 5, b.testBit 4] = b / 16 := by
  decide

set_option maxRecDepth 4096 in
theorem bitsToNat_lo_nibble :
    ∀ b : Nat, b < 256 →
      bitsToNat [b.testBit 3, b.testBit 2, b.testBit 1, b.testBit 0] = b % 16 := by
  decide

theorem nibblesOfBits_byte (b : Nat) (hb : b < 256) (rest : List Bool) :
    nibblesOfBits (byteToBits b ++ rest) = b / 16 :: b % 16 :: nibblesOfBits rest := by
  rw [byteToBits_eq]
  simp only [List.cons_append, List.nil_append, nibblesOfBits]
  rw [bitsToNat_hi_nibble b hb, bitsToNat_lo_nibble b hb]
  rfl

theorem nibblesOfBits_bytes (pub : List Nat) (h : ∀ b ∈ pub, b < 256)
    (tail : List Bool) :
    nibblesOfBits (bytesToBits pub ++ tail) =
      pub.flatMap (fun b => [b / 16, b % 16]) ++ nibblesOfBits tail := by
  induction pub with
  | nil => simp [bytesToBits]
  | cons b rest ih =>
      have hb : b < 256 := h b (by simp)
      have hrest : ∀ x ∈ rest, x < 256 := fun x hx => h x (by simp [hx])
      simp only [bytesToBits, List.flatMap_cons, List.append_assoc] at *
      rw [nibblesOfBits_byte b hb, ih hrest]
      simp

theorem bytesOfNibbles_flatMap (pub : List Nat) (h : ∀ b ∈ pub, b < 256) :
    bytesOfNibbles (pub.flatMap (fun b => [b / 16, b % 16])) = pub := by
  induction pub with
  | nil => rfl
  | cons b rest ih =>
      have hrest : ∀ x ∈ rest, x < 256 := fun x hx => h x (by simp [hx])
      simp only [List.flatMap_cons, List.cons_append, List.nil_append,
        bytesOfNibbles]
      have hbmod : b / 16 * 16 + b % 16 = b := by omega
      rw [hbmod]
      exact congrArg (b :: ·) (ih hrest)

/-- The body of an encoded address decodes back to the padded bit
sequence, and the nibble re-anchoring of `extract_public_key` recovers
exactly the original 32 key bytes. -/
theorem extract_addressFromPublic (blake : List Nat → List Nat)
    (pub : List Nat) (h32 : pub.length = 32) (hb : ∀ b ∈ pub, b < 256)
    (hblen : (blake pub).length = 5) :
    extract_public_key (addressFromPublic blake pub) = .ok pub := by
  have hbits : (List.replicate 4 false ++ bytesToBits pub).length = 5 * 52 := by
    rw [List.length_append, List.length_replicate, bytesToBits_length, h32]
  have hbody : (encode_nano_base_32
      (List.replicate 4 false ++ bytesToBits pub)).length = 52 :=
    encode_length 52 _ hbits
  have hchk : (checksumChars blake pub).length = 8 := by
    unfold checksumChars
    refine encode_length 8 _ ?_
    rw [bytesToBits_length, List.length_reverse, hblen]
  have hlen : (addressFromPublic blake pub).length = 65 := by
    unfold addressFromPublic
    simp only [List.length_append, hbody, hchk]
    rfl
  have h57 : 57 ≤ (addressFromPublic blake pub).length := by
    rw [hlen]
    norm_num
  rw [extract_public_key, if_pos h57]
  have hpart : ((addressFromPublic blake pub).drop 5).take 52 =
      encode_nano_base_32 (List.replicate 4 false ++ bytesToBits pub) := by
    unfold addressFromPublic
    rw [List.append_assoc]
    have h5 : ("nano_".data).length = 5 := rfl
    rw [← h5, List.drop_left, ← hbody, List.take_left]
  have hnib : nibblesOfBits ((List.replicate 4 false ++ bytesToBits pub) ++
      List.replicate 4 false) =
      0 :: (pub.flatMap (fun b => [b / 16, b % 16]) ++ [0]) := by
    rw [List.append_assoc]
    show nibblesOfBits (false :: false :: false :: false ::
      (bytesToBits pub ++ List.replicate 4 false)) = _
    rw [nibblesOfBits]
    rw [nibblesOfBits_bytes pub hb]
    rfl
  have hrep : ((8 : Nat) - 5 * 52 % 8) % 8 = 4 := by norm_num
  simp only [hpart, decode_encode 52 _ hbits, hbits, hrep, hnib,
    List.drop_succ_cons, List.drop_zero]
  rw [List.dropLast_concat]
  rw [bytesOfNibbles_flatMap pub hb]
  rw [if_pos h32]

theorem addressFromPublic_length (blake : List Nat → List Nat)
    (pub : List Nat) (h32 : pub.length = 32) (hblen : (blake pub).length = 5) :
    (addressFromPublic blake pub).length = 65 := by
  have hbody : (encode_nano_base_32
      (List.replicate 4 false ++ bytesToBits pub)).length = 52 := by
    refine encode_length 52 _ ?_
    rw [List.length_append, List.length_replicate, bytesToBits_length, h32]
  have hchk : (checksumChars blake pub).length = 8 := by
    unfold checksumChars
    refine encode_length 8 _ ?_
    rw [bytesToBits_length, List.length_reverse, hblen]
  unfold addressFromPublic
  simp only [List.length_append, hbody, hchk]
  rfl

theorem addressFromPublic_take5 (blake : List Nat → List Nat)
    (pub : List Nat) :
    (addressFromPublic blake pub).take 5 = "nano_".data := by
  unfold addressFromPublic
  rw [List.append_assoc]
  have h5 : ("nano_".data).length = 5 := rfl
  rw [← h5, List.take_left]

theorem addressFromPublic_drop5 (blake : List Nat → List Nat)
    (pub : List Nat) :
    (addressFromPublic blake pub).drop 5 =
      encode_nano_base_32 (List.replicate 4 false ++ bytesToBits pub) ++
        checksumChars blake pub := by
  unfold addressFromPublic
  rw [List.append_assoc]
  have h5 : ("nano_".data).length = 5 := rfl
  rw [← h5, List.drop_left]

theorem addressFromPublic_drop57 (blake : List Nat → List Nat)
    (pub : List Nat) (h32 : pub.length = 32) :
    (addressFromPublic blake pub).drop 57 = checksumChars blake pub := by
  have hbody : (encode_nano_base_32
      (List.replicate 4 false ++ bytesToBits pub)).length = 52 := by
    refine encode_length 52 _ ?_
    rw [List.length_append, List.length_replicate, bytesToBits_length, h32]
  unfold addressFromPublic
  have h57 : ("nano_".data ++ encode_nano_base_32
      (List.replicate 4 false ++ bytesToBits pub)).length = 57 := by
    rw [List.length_append, hbody]
    rfl
  rw [← h57, List.drop_left]

/-- The head of the encoded body comes from the chunk `0000 b₇`, hence is
`'1'` or `'3'`. -/
theorem body_head_eq (p : Nat) (rest : List Nat) :
    encode_nano_base_32 (List.replicate 4 false ++ bytesToBits (p :: rest)) =
      encodeChunk false false false false (p.testBit 7) ::
        encode_nano_base_32 (p.testBit 6 :: p.testBit 5 :: p.testBit 4 ::
          p.testBit 3 :: p.testBit 2 :: p.testBit 1 :: p.testBit 0 ::
          bytesToBits rest) := by
  have hsplit : List.replicate 4 false ++ bytesToBits (p :: rest) =
      false :: false :: false :: false :: p.testBit 7 :: p.testBit 6 ::
        p.testBit 5 :: p.testBit 4 :: p.testBit 3 :: p.testBit 2 ::
        p.testBit 1 :: p.testBit 0 :: bytesToBits rest := by
    show List.replicate 4 false ++ (byteToBits p ++ bytesToBits rest) = _
    rw [byteToBits_eq]
    rfl
  rw [hsplit]
  rfl

/-- Every address produced by `From<&Public>` matches `ADDRESS_REGEX`. -/
theorem regex_addressFromPublic (blake : List Nat → List Nat)
    (pub : List Nat) (h32 : pub.length = 32) (hblen : (blake pub).length = 5) :
    addressRegexMatch (addressFromPublic blake pub) = true := by
  obtain ⟨p, rest, rfl⟩ : ∃ p rest, pub = p :: rest := by
    cases pub with
    | nil => simp at h32
    | cons p rest => exact ⟨p, rest, rfl⟩
  have hlen := addressFromPublic_length blake _ h32 hblen
  have htake := addressFromPublic_take5 blake (p :: rest)
  have hdrop := addressFromPublic_drop5 blake (p :: rest)
  rw [body_head_eq] at hdrop
  unfold addressRegexMatch
  rw [hlen, htake, hdrop]
  simp only [List.cons_append, Bool.and_eq_true, decide_eq_true_eq,
    List.all_eq_true, List.mem_append]
  refine ⟨⟨trivial, trivial⟩, ?_, ?_⟩
  · cases p.testBit 7 <;> decide
  · intro x hx
    rcases hx with h | h
    · exact encode_mem_alphabet _ x h
    · exact encode_mem_alphabet _ x h

/-- C1: decoding an encoded address yields the original key.  Parsing the
address produced from any valid 32-byte public key succeeds (the 4
stripped padding bits are re-anchored exactly), and `to_public` on the
parsed address returns the original 32 bytes. -/
theorem claim_C1_round_trip (blake : List Nat → List Nat) (pub : List Nat)
    (h32 : pub.length = 32) (hb : ∀ b ∈ pub, b < 256)
    (hblen : (blake pub).length = 5) :
    address_from_str blake (addressFromPublic blake pub) =
        .ok (addressFromPublic blake pub) ∧
      to_public (addressFromPublic blake pub) = some pub := by
  have hex := extract_addressFromPublic blake pub h32 hb hblen
  constructor
  · unfold address_from_str
    rw [if_pos (regex_addressFromPublic blake pub h32 hblen), hex]
    simp [validate_checksum, addressFromPublic_drop57 blake pub h32]
  · unfold to_public
    rw [hex]
    rfl

/-- C1 witness at the all-zero key with a concrete digest function. -/
theorem claim_C1_round_trip_witness :
    address_from_str (fun _ => [0, 0, 0, 0, 0])
        (addressFromPublic (fun _ => [0, 0, 0, 0, 0]) (List.replicate 32 0)) =
        .ok (addressFromPublic (fun _ => [0, 0, 0, 0, 0])
          (List.replicate 32 0)) ∧
      to_public (addressFromPublic (fun _ => [0, 0, 0, 0, 0])
        (List.replicate 32 0)) = some (List.replicate 32 0) :=
  claim_C1_round_trip (fun _ => [0, 0, 0, 0, 0]) (List.replicate 32 0)
    (by decide) (by decide) (by decide)

/-- C2: the encoder's output is exactly 65 characters: the 5-character
prefix `nano_`, then 52 base-32 characters encoding 4 zero padding bits
followed by the 256 key bits, then the 8-character checksum of the key. -/
theorem claim_C2_encode_structure (blake : List Nat → List Nat)
    (pub : List Nat) (h32 : pub.length = 32) (hblen : (blake pub).length = 5) :
    (addressFromPublic blake pub).length = 65 ∧
      (addressFromPublic blake pub).take 5 = "nano_".data ∧
      ((addressFromPublic blake pub).drop 5).take 52 =
        encode_nano_base_32 (List.replicate 4 false ++ bytesToBits pub) ∧
      (encode_nano_base_32 (List.replicate 4 false ++ bytesToBits pub)).length
        = 52 ∧
      (List.replicate 4 false ++ bytesToBits pub).length = 260 ∧
      (addressFromPublic blake pub).drop 57 = checksumChars blake pub ∧
      (checksumChars blake pub).length = 8 := by
  have hbits : (List.replicate 4 false ++ bytesToBits pub).length = 5 * 52 := by
    rw [List.length_append, List.length_replicate, bytesToBits_length, h32]
  have hbody : (encode_nano_base_32
      (List.replicate 4 false ++ bytesToBits pub)).length = 52 :=
    encode_length 52 _ hbits
  refine ⟨addressFromPublic_length blake pub h32 hblen,
    addressFromPublic_take5 blake pub, ?_, hbody, by omega,
    addressFromPublic_drop57 blake pub h32, ?_⟩
  · rw [addressFromPublic_drop5, ← hbody, List.take_left]
  · unfold checksumChars
    refine encode_length 8 _ ?_
    rw [bytesToBits_length, List.length_reverse, hblen]

/-- C2 witness at the all-zero key with a concrete digest function. -/
theorem claim_C2_encode_structure_witness :
    (addressFromPublic (fun _ => [0, 0, 0, 0, 0])
        (List.replicate 32 0)).length = 65 ∧
      (addressFromPublic (fun _ => [0, 0, 0, 0, 0])
        (List.replicate 32 0)).take 5 = "nano_".data ∧
      ((addressFromPublic (fun _ => [0, 0, 0, 0, 0])
          (List.replicate 32 0)).drop 5).take 52 =
        encode_nano_base_32 (List.replicate 4 false ++
          bytesToBits (List.replicate 32 0)) ∧
      (encode_nano_base_32 (List.replicate 4 false ++
        bytesToBits (List.replicate 32 0))).length = 52 ∧
      (List.replicate 4 false ++ bytesToBits (List.replicate 32 0)).length
        = 260 ∧
      (addressFromPublic (fun _ => [0, 0, 0, 0, 0])
          (List.replicate 32 0)).drop 57 =
        checksumChars (fun _ => [0, 0, 0, 0, 0]) (List.replicate 32 0) ∧
      (checksumChars (fun _ => [0, 0, 0, 0, 0])
        (List.replicate 32 0)).length = 8 :=
  claim_C2_encode_structure (fun _ => [0, 0, 0, 0, 0]) (List.replicate 32 0)
    (by decide) (by decide)

/-- C3: any string that fails the address pattern is rejected with
`InvalidAddress` (the pattern check comes first, so no checksum work
happens), and wrong length, wrong prefix, or a character outside the
alphabet in the body each force a pattern failure. -/
theorem claim_C3_invalid_address (blake : List Nat → List Nat)
    (cs : List Char) :
    (addressRegexMatch cs = false →
        address_from_str blake cs = .error .invalidAddress) ∧
      (cs.length ≠ 65 → addressRegexMatch cs = false) ∧
      (cs.take 5 ≠ "nano_".data → addressRegexMatch cs = false) ∧
      ((∃ x ∈ cs.drop 5, x ∉ NANO_ALPHABET) → addressRegexMatch cs = false) := by
  refine ⟨?_, ?_, ?_, ?_⟩
  · intro h
    unfold address_from_str
    rw [h]
    rfl
  · intro h
    unfold addressRegexMatch
    simp [h]
  · intro h
    by_contra hmatch
    rw [Bool.not_eq_false] at hmatch
    unfold addressRegexMatch at hmatch
    simp only [Bool.and_eq_true, decide_eq_true_eq] at hmatch
    exact h hmatch.1.2
  · rintro ⟨x, hx, hnx⟩
    by_contra hmatch
    rw [Bool.not_eq_false] at hmatch
    unfold addressRegexMatch at hmatch
    rcases hd : cs.drop 5 with _ | ⟨c, rest⟩
    · rw [hd] at hmatch
      simp at hmatch
    · rw [hd] at hmatch
      simp only [Bool.and_eq_true, decide_eq_true_eq, Bool.or_eq_true,
        List.all_eq_true] at hmatch
      rw [hd] at hx
      rcases List.mem_cons.mp hx with h1 | h1
      · subst h1
        rcases hmatch.2.1 with h | h <;> subst h <;> exact hnx (by decide)
      · exact hnx (hmatch.2.2 x h1)

/-- C3 witness: a string failing the pattern is rejected, and concrete
wrong-length, wrong-prefix, and foreign-character strings all fail the
pattern. -/
theorem claim_C3_invalid_address_witness :
    address_from_str (fun _ => [0, 0, 0, 0, 0]) "hello".data =
        .error .invalidAddress ∧
      addressRegexMatch "nano_1".data = false ∧
      addressRegexMatch ("xano_".data ++ List.replicate 60 '1') = false ∧
      addressRegexMatch ("nano_".data ++ List.replicate 60 '0') = false := by
  refine ⟨(claim_C3_invalid_address (fun _ => [0, 0, 0, 0, 0])
      "hello".data).1 (by decide),
    (claim_C3_invalid_address (fun _ => [0, 0, 0, 0, 0])
      "nano_1".data).2.1 (by decide),
    (claim_C3_invalid_address (fun _ => [0, 0, 0, 0, 0])
      ("xano_".data ++ List.replicate 60 '1')).2.2.1 (by decide),
    (claim_C3_invalid_address (fun _ => [0, 0, 0, 0, 0])
      ("nano_".data ++ List.replicate 60 '0')).2.2.2 ?_⟩
  exact ⟨'0', by decide, by decide⟩

theorem decode_success (cs : List Char) (h : ∀ c ∈ cs, c ∈ NANO_ALPHABET) :
    ∃ bits, decode_nano_base_32 cs = some bits ∧ bits.length = 5 * cs.length := by
  induction cs with
  | nil => exact ⟨[], rfl, rfl⟩
  | cons c rest ih =>
      have hc : c ∈ NANO_ALPHABET := h c (by simp)
      obtain ⟨bits, hdec, hlen⟩ := ih (fun x hx => h x (by simp [hx]))
      refine ⟨natToBits 5 (NANO_ALPHABET.indexOf c) ++ bits, ?_, ?_⟩
      · unfold decode_nano_base_32 decodeChar
        rw [if_pos hc, hdec]
      · rw [List.length_append, natToBits_length, hlen, List.length_cons]
        omega

theorem nibblesOfBits_length : ∀ (n : Nat) (l : List Bool),
    l.length = 4 * n → (nibblesOfBits l).length = n := by
  intro n
  induction n with
  | zero =>
      intro l h
      have : l = [] := List.eq_nil_of_length_eq_zero (by omega)
      subst this
      rfl
  | succ n ih =>
      intro l h
      match l with
      | a :: b :: c :: d :: rest =>
          simp only [nibblesOfBits, List.length_cons]
          refine congrArg Nat.succ (ih rest ?_)
          simp only [List.length_cons] at h
          omega
      | [] => simp at h
      | [a] => simp at h; omega
      | [a, b] => simp at h; omega
      | [a, b, c] => simp at h; omega

theorem bytesOfNibbles_length : ∀ (n : Nat) (l : List Nat),
    l.length = 2 * n → (bytesOfNibbles l).length = n := by
  intro n
  induction n with
  | zero =>
      intro l h
      have : l = [] := List.eq_nil_of_length_eq_zero (by omega)
      subst this
      rfl
  | succ n ih =>
      intro l h
      match l with
      | hi :: lo :: rest =>
          simp only [bytesOfNibbles, List.length_cons]
          refine congrArg Nat.succ (ih rest ?_)
          simp only [List.length_cons] at h
          omega
      | [] => simp at h
      | [a] => simp at h; omega

/-- On any string matching `ADDRESS_REGEX`, `extract_public_key`
succeeds and yields 32 bytes: the slice is in bounds, the 52-character
body decodes (every character is in the alphabet), and the nibble
re-packing produces a buffer that `Public::try_from` accepts. -/
theorem extract_of_regex (cs : List Char) (h : addressRegexMatch cs = true) :
    ∃ pub, extract_public_key cs = .ok pub ∧ pub.length = 32 := by
  unfold addressRegexMatch at h
  rcases hd : cs.drop 5 with _ | ⟨c, rest⟩ <;> rw [hd] at h
  · simp at h
  · simp only [Bool.and_eq_true, decide_eq_true_eq, Bool.or_eq_true,
      List.all_eq_true] at h
    obtain ⟨⟨hlen, -⟩, hc, hrest⟩ := h
    have hdlen : (cs.drop 5).length = 60 := by
      rw [List.length_drop, hlen]
    have hpartmem : ∀ x ∈ (cs.drop 5).take 52, x ∈ NANO_ALPHABET := by
      intro x hx
      have hx5 : x ∈ cs.drop 5 := List.mem_of_mem_take hx
      rw [hd] at hx5
      rcases List.mem_cons.mp hx5 with h1 | h1
      · subst h1
        rcases hc with h | h <;> subst h <;> decide
      · exact hrest x h1
    have hpartlen : ((cs.drop 5).take 52).length = 52 := by
      rw [List.length_take, hdlen]
      omega
    obtain ⟨bits, hdec, hbitslen⟩ := decode_success _ hpartmem
    rw [hpartlen] at hbitslen
    have h57 : 57 ≤ cs.length := by omega
    have hnlen : (nibblesOfBits (bits ++ List.replicate 4 false)).length = 66 := by
      refine nibblesOfBits_length 66 _ ?_
      rw [List.length_append, List.length_replicate, hbitslen]
    have hlen32 : (bytesOfNibbles (((nibblesOfBits
        (bits ++ List.replicate 4 false)).drop 1).dropLast)).length = 32 := by
      refine bytesOfNibbles_length 32 _ ?_
      rw [List.length_dropLast, List.length_drop, hnlen]
    refine ⟨bytesOfNibbles (((nibblesOfBits
      (bits ++ List.replicate 4 false)).drop 1).dropLast), ?_, hlen32⟩
    unfold extract_public_key
    rw [if_pos h57]
    have hrep : ((8 : Nat) - 5 * 52 % 8) % 8 = 4 := by norm_num
    simp only [hdec, hbitslen, hrep]
    rw [if_pos hlen32]

/-- C4: on any string matching the address pattern, the public key
extraction succeeds, and `from_str` succeeds exactly when the trailing 8
characters equal the checksum computed from the decoded key, failing with
`InvalidChecksum` otherwise. -/
theorem claim_C4_checksum (blake : List Nat → List Nat) (cs : List Char)
    (h : addressRegexMatch cs = true) :
    ∃ pub, extract_public_key cs = .ok pub ∧
      (checksumChars blake pub = cs.drop 57 →
        address_from_str blake cs = .ok cs) ∧
      (checksumChars blake pub ≠ cs.drop 57 →
        address_from_str blake cs = .error .invalidChecksum) := by
  obtain ⟨pub, hex, -⟩ := extract_of_regex cs h
  refine ⟨pub, hex, ?_, ?_⟩
  · intro hchk
    unfold address_from_str
    rw [if_pos h, hex]
    simp [validate_checksum, hchk]
  · intro hchk
    unfold address_from_str
    rw [if_pos h, hex]
    simp [validate_checksum, hchk]

/-- C4 witness at the documented example address with a concrete digest
function. -/
theorem claim_C4_checksum_witness :
    addressRegexMatch
        "nano_3o3nkaqbgxbuhmcrf38tpxyhsf5semmcahejyk9z5ybffm7tjhizrfqo7xkg".data
        = true ∧
      ∃ pub, extract_public_key
          "nano_3o3nkaqbgxbuhmcrf38tpxyhsf5semmcahejyk9z5ybffm7tjhizrfqo7xkg".data
          = .ok pub ∧
        (checksumChars (fun _ => [0, 0, 0, 0, 0]) pub =
            ("nano_3o3nkaqbgxbuhmcrf38tpxyhsf5semmcahejyk9z5ybffm7tjhizrfqo7xkg".data).drop 57 →
          address_from_str (fun _ => [0, 0, 0, 0, 0])
            "nano_3o3nkaqbgxbuhmcrf38tpxyhsf5semmcahejyk9z5ybffm7tjhizrfqo7xkg".data
            = .ok "nano_3o3nkaqbgxbuhmcrf38tpxyhsf5semmcahejyk9z5ybffm7tjhizrfqo7xkg".data) ∧
        (checksumChars (fun _ => [0, 0, 0, 0, 0]) pub ≠
            ("nano_3o3nkaqbgxbuhmcrf38tpxyhsf5semmcahejyk9z5ybffm7tjhizrfqo7xkg".data).drop 57 →
          address_from_str (fun _ => [0, 0, 0, 0, 0])
            "nano_3o3nkaqbgxbuhmcrf38tpxyhsf5semmcahejyk9z5ybffm7tjhizrfqo7xkg".data
            = .error .invalidChecksum) :=
  ⟨by decide, claim_C4_checksum (fun _ => [0, 0, 0, 0, 0])
    "nano_3o3nkaqbgxbuhmcrf38tpxyhsf5semmcahejyk9z5ybffm7tjhizrfqo7xkg".data
    (by decide)⟩

/-- C6: an `Address` built by the validated `from_str` path is the input
string itself, and on it `to_public` always succeeds (the `unwrap` over
`extract_public_key` is unreachable), returning exactly the key that was
decoded and checksum-verified at parse time; `to_public` performs no
checksum re-validation. -/
theorem claim_C6_trust_boundary (blake : List Nat → List Nat)
    (cs a : List Char) (h : address_from_str blake cs = .ok a) :
    a = cs ∧ ∃ pub, extract_public_key a = .ok pub ∧
      to_public a = some pub ∧ checksumChars blake pub = a.drop 57 := by
  unfold address_from_str at h
  by_cases hre : addressRegexMatch cs = true
  · rw [if_pos hre] at h
    split at h
    · simp at h
    · rename_i pub hex
      split at h
      · simp at h
      · rename_i u hval
        unfold validate_checksum at hval
        split at hval
        · rename_i hchk
          simp only [Except.ok.injEq] at h
          subst h
          exact ⟨rfl, pub, hex, by unfold to_public; rw [hex]; rfl, hchk⟩
        · simp at hval
  · rw [if_neg hre] at h
    simp at h

set_option maxRecDepth 8192 in
/-- C6 witness: parse the address of the all-zero key, then observe
`to_public` succeed with the parse-time key. -/
theorem claim_C6_trust_boundary_witness :
    addressFromPublic (fun _ => [0, 0, 0, 0, 0]) (List.replicate 32 0) =
        addressFromPublic (fun _ => [0, 0, 0, 0, 0]) (List.replicate 32 0) ∧
      ∃ pub, extract_public_key (addressFromPublic (fun _ => [0, 0, 0, 0, 0])
          (List.replicate 32 0)) = .ok pub ∧
        to_public (addressFromPublic (fun _ => [0, 0, 0, 0, 0])
          (List.replicate 32 0)) = some pub ∧
        checksumChars (fun _ => [0, 0, 0, 0, 0]) pub =
          (addressFromPublic (fun _ => [0, 0, 0, 0, 0])
            (List.replicate 32 0)).drop 57 :=
  claim_C6_trust_boundary (fun _ => [0, 0, 0, 0, 0])
    (addressFromPublic (fun _ => [0, 0, 0, 0, 0]) (List.replicate 32 0))
    (addressFromPublic (fun _ => [0, 0, 0, 0, 0]) (List.replicate 32 0))
    rfl

/-- C10: nothing forces an `Address` through `from_str` (the struct
derives `Deserialize` over its inner string), and on such unvalidated
values `to_public` panics: on a string shorter than 57 characters the
body slice is out of bounds, and on a 65-character string whose body
fails base-32 decoding the `unwrap` fires.  `none` is the panic. -/
theorem claim_C10_unvalidated_panic :
    to_public "".data = none ∧
      to_public ("nano_".data ++ List.replicate 60 '0') = none := by
  constructor <;> rfl

/-! ## Wire message framer (`node/src/messages/handle_confirm_req.rs`) -/

/-- Wire-level parse errors.  `messageLengthMismatch` carries the message
type name, the declared length and the actual length (modelled from the
spec: "fails with a length-mismatch error (naming the message type)").
`fieldLengthMismatch` is the error of a fixed-length field conversion
(spec: "each field-level conversion itself fails if its slice is not
exactly 32 bytes"). -/
inductive WireError where
  | messageLengthMismatch (name : String) (expected actual : Nat)
  | fieldLengthMismatch
  deriving DecidableEq, Repr

/-- Modelled from the spec: `feeless::expect_len` (not in the sources) —
succeeds exactly when the buffer length equals the declared length,
otherwise fails with an error naming the message type. -/
def expect_len (actual expected : Nat) (name : String) :
    Except WireError Unit :=
  if actual = expected then .ok ()
  else .error (.messageLengthMismatch name expected actual)

/-- Modelled from the spec: `BlockHash::LEN` (not in the sources) — "a
fixed-size byte sequence (32 bytes)". -/
def BlockHash.LEN : Nat := 32

/-- Modelled from the spec: `BlockHash::try_from` on a byte slice (not in
the sources) — succeeds exactly on 32-byte slices. -/
def blockHashTryFrom (l : List Nat) : Except WireError (List Nat) :=
  if l.length = BlockHash.LEN then .ok l else .error .fieldLengthMismatch

/-- The parsed confirmation-request message: two 32-byte block hashes. -/
structure HandleConfirmReq where
  hash : List Nat
  root : List Nat
  deriving DecidableEq, Repr

/-- `HandleConfirmReq::LEN = BlockHash::LEN * 2`. -/
def HandleConfirmReq.LEN : Nat := BlockHash.LEN * 2

/-- `HandleConfirmReq::deserialize`: enforce the declared frame length
first, then slice the two fixed-offset 32-byte fields
(`data[0..32]`, `data[32..]`). -/
def HandleConfirmReq.deserialize (data : List Nat) :
    Except WireError HandleConfirmReq :=
  match expect_len data.length HandleConfirmReq.LEN "Handle confirmation req" with
  | .error e => .error e
  | .ok _ =>
      match blockHashTryFrom (data.take BlockHash.LEN),
          blockHashTryFrom (data.drop BlockHash.LEN) with
      | .ok hash, .ok root => .ok ⟨hash, root⟩
      | .error e, _ => .error e
      | _, .error e => .error e

/-- C5: `deserialize` fails with the length-mismatch error naming the
confirmation-request type exactly when the buffer is not 64 bytes, and on
a 64-byte buffer returns the first and second 32-byte halves as `hash`
and `root`. -/
theorem claim_C5_frame_length (data : List Nat) :
    (data.length ≠ 64 →
        HandleConfirmReq.deserialize data =
          .error (.messageLengthMismatch "Handle confirmation req" 64
            data.length)) ∧
      (data.length = 64 →
        HandleConfirmReq.deserialize data =
          .ok ⟨data.take 32, data.drop 32⟩) := by
  constructor
  · intro h
    unfold HandleConfirmReq.deserialize expect_len
    rw [if_neg (by simpa [HandleConfirmReq.LEN, BlockHash.LEN] using h)]
    rfl
  · intro h
    unfold HandleConfirmReq.deserialize expect_len
    rw [if_pos (by simpa [HandleConfirmReq.LEN, BlockHash.LEN] using h)]
    have htake : (data.take BlockHash.LEN).length = BlockHash.LEN := by
      rw [List.length_take, h]
      rfl
    have hdrop : (data.drop BlockHash.LEN).length = BlockHash.LEN := by
      rw [List.length_drop, h]
      rfl
    unfold blockHashTryFrom
    rw [if_pos htake, if_pos hdrop]
    rfl

/-- C5 witness: the empty buffer is rejected with the length error; a
concrete 64-byte buffer parses into its two halves. -/
theorem claim_C5_frame_length_witness :
    HandleConfirmReq.deserialize [] =
        .error (.messageLengthMismatch "Handle confirmation req" 64 0) ∧
      HandleConfirmReq.deserialize (List.range 64) =
        .ok ⟨(List.range 64).take 32, (List.range 64).drop 32⟩ :=
  ⟨(claim_C5_frame_length []).1 (by decide),
    (claim_C5_frame_length (List.range 64)).2 (by decide)⟩

/-! ## Ledger state (`src/node/state/mod.rs`)

The `State` trait lists the operations; its backends
(`src/node/state/memory.rs`, `src/node/state/sled_disk.rs`) are not in
the sources, so the in-memory backend is modelled from the spec:
"simple mapping-based storage" with the contract of §4.3 — `addBlock`
persists the block under the account, lookups return an explicit
not-found, cookie writes are last-write-wins.  Maps are association
lists with most-recent entry first; the in-memory backend never fails,
so its operations are pure. -/

/-- `Network` (`src/node/network.rs` is not in the sources; the spec
lists main/test/beta variants). -/
inductive Network where
  | main
  | test
  | beta
  deriving DecidableEq, Repr

/-- Modelled from the spec: a ledger block — "block hash, account,
amount, predecessor/links (opaque to this core)".  The hash identifies
the block; the remaining metadata is opaque payload. -/
structure FullBlock where
  hash : List Nat
  payload : List Nat
  deriving DecidableEq, Repr

/-- Modelled from the spec: the in-memory backend's store.  Peer socket
addresses are modelled as strings, balances (`Raw`) as arbitrary-precision
naturals. -/
structure MemoryState where
  network : Network
  blocks : List (List Nat × FullBlock)
  blockAccounts : List (List Nat × List Nat)
  sentBalances : List (List Nat × Nat)
  recvBalances : List (List Nat × Nat)
  cookies : List (String × List Nat)
  deriving Repr

/-- `State::add_block`: persist the block under its hash and record the
hash → account reverse index. -/
def MemoryState.add_block (st : MemoryState) (account : List Nat)
    (full_block : FullBlock) : MemoryState :=
  { st with
    blocks := (full_block.hash, full_block) :: st.blocks
    blockAccounts := (full_block.hash, account) :: st.blockAccounts }

/-- `State::get_block_by_hash`: the matching block, or an explicit
not-found. -/
def MemoryState.get_block_by_hash (st : MemoryState) (hash : List Nat) :
    Option FullBlock :=
  st.blocks.lookup hash

/-- `State::account_for_block_hash`: reverse index lookup. -/
def MemoryState.account_for_block_hash (st : MemoryState)
    (block_hash : List Nat) : Option (List Nat) :=
  st.blockAccounts.lookup block_hash

/-- `State::set_sent_account_balance`. -/
def MemoryState.set_sent_account_balance (st : MemoryState)
    (account : List Nat) (raw : Nat) : MemoryState :=
  { st with sentBalances := (account, raw) :: st.sentBalances }

/-- `State::set_recv_account_balance`. -/
def MemoryState.set_recv_account_balance (st : MemoryState)
    (account : List Nat) (raw : Nat) : MemoryState :=
  { st with recvBalances := (account, raw) :: st.recvBalances }

/-- `State::sent_account_balance`. -/
def MemoryState.sent_account_balance (st : MemoryState)
    (account : List Nat) : Option Nat :=
  st.sentBalances.lookup account

/-- `State::recv_account_balance`. -/
def MemoryState.recv_account_balance (st : MemoryState)
    (account : List Nat) : Option Nat :=
  st.recvBalances.lookup account

/-- `State::set_cookie`: unconditionally overwrite (the newest entry
shadows any older one). -/
def MemoryState.set_cookie (st : MemoryState) (socket_addr : String)
    (cookie : List Nat) : MemoryState :=
  { st with cookies := (socket_addr, cookie) :: st.cookies }

/-- `State::cookie_for_socket_addr`. -/
def MemoryState.cookie_for_socket_addr (st : MemoryState)
    (socket_addr : String) : Option (List Nat) :=
  st.cookies.lookup socket_addr

/-- C7: read-your-writes — immediately after `add_block`,
`get_block_by_hash` on the block's hash returns the block and
`account_for_block_hash` returns the account. -/
theorem claim_C7_read_your_writes (st : MemoryState) (account : List Nat)
    (b : FullBlock) :
    (st.add_block account b).get_block_by_hash b.hash = some b ∧
      (st.add_block account b).account_for_block_hash b.hash = some account := by
  constructor <;>
    simp [MemoryState.add_block, MemoryState.get_block_by_hash,
      MemoryState.account_for_block_hash, List.lookup]

/-- C8: cookie overwrite — after setting a cookie twice for the same
peer address, only the latest cookie is retrievable. -/
theorem claim_C8_cookie_overwrite (st : MemoryState) (a : String)
    (c1 c2 : List Nat) :
    ((st.set_cookie a c1).set_cookie a c2).cookie_for_socket_addr a =
      some c2 := by
  simp [MemoryState.set_cookie, MemoryState.cookie_for_socket_addr,
    List.lookup]

/-- C9: balance independence — setting the sent balance leaves every
recv balance read unchanged, and setting the recv balance leaves every
sent balance read unchanged. -/
theorem claim_C9_balance_independence (st : MemoryState)
    (account q : List Nat) (r : Nat) :
    (st.set_sent_account_balance account r).recv_account_balance q =
        st.recv_account_balance q ∧
      (st.set_recv_account_balance account r).sent_account_balance q =
        st.sent_account_balance q :=
  ⟨rfl, rfl⟩

end Feeless
